import Mathlib

/-!
Verification development for the Qute Grover scan core
(`grover_kernel.py`, `01_build_low_selectivity_plan.py`,
`02_run_low_selectivity_jobs.py`).

The gate synthesis layer is embedded as gate lists over the named gates the
source emits (`_h`, `_x`, `_z`, `_t`, `_tdg` and the native `CZ`); programs
are simulated exactly over the ring of Clifford+T amplitudes
`ZZ[omega]` with `omega = exp(i*pi/4)`, tracking the global power of
`sqrt 2` implicitly through the number of Hadamard applications (every
amplitude produced by a circuit with `k` Hadamards is an element of
`ZZ[omega]` divided by `sqrt 2 ^ k`, and we store only the numerator).

The multi-controlled-Z ladder (`_cmz`) is additionally embedded one level up,
over an op alphabet {Toffoli, CZ, Z} matching its call structure in the
source; those ops act on computational basis states as a classical state
update plus a phase sign, which is the semantics used for the ancilla
restoration and phase theorems.
-/

namespace Qute

/-- An element `a + b*omega + c*omega^2 + d*omega^3` of `ZZ[omega]`,
`omega = exp(i*pi/4)`, with `omega^4 = -1`. -/
structure Zeta8 where
  a : Int
  b : Int
  c : Int
  d : Int
deriving DecidableEq, Repr

def Zeta8.zero : Zeta8 := ⟨0, 0, 0, 0⟩

def Zeta8.ofInt (n : Int) : Zeta8 := ⟨n, 0, 0, 0⟩

def Zeta8.add (x y : Zeta8) : Zeta8 := ⟨x.a + y.a, x.b + y.b, x.c + y.c, x.d + y.d⟩

def Zeta8.sub (x y : Zeta8) : Zeta8 := ⟨x.a - y.a, x.b - y.b, x.c - y.c, x.d - y.d⟩

def Zeta8.neg (x : Zeta8) : Zeta8 := ⟨-x.a, -x.b, -x.c, -x.d⟩

/-- Multiplication by `omega` (the `T` gate phase). -/
def Zeta8.mulOmega (x : Zeta8) : Zeta8 := ⟨-x.d, x.a, x.b, x.c⟩

/-- Multiplication by `omega⁻¹ = -omega^3` (the `T`-dagger phase). -/
def Zeta8.mulOmegaInv (x : Zeta8) : Zeta8 := ⟨x.b, x.c, x.d, -x.a⟩

/-- The named gates emitted by `grover_kernel.py`: the single-qubit helpers
`_h`, `_x`, `_z`, `_t`, `_tdg` (each a fixed-angle `U3`) and the native
two-qubit `CZ`. -/
inductive G where
  | h (q : Nat)
  | x (q : Nat)
  | z (q : Nat)
  | t (q : Nat)
  | tdg (q : Nat)
  | cz (a b : Nat)
deriving DecidableEq, Repr

/-- Apply one gate to a state vector of `ZZ[omega]` numerators (basis index
`j` has wire `w`'s value in bit `w` of `j`, LSB first, matching
`_bits_of_int`).  A Hadamard multiplies the implicit global denominator by
`sqrt 2`; all other gates leave it unchanged. -/
def applyG (g : G) (amps : List Zeta8) : List Zeta8 :=
  let L := amps.length
  match g with
  | .h w => (List.range L).map fun j =>
      if j.testBit w then
        (amps.getD (j ^^^ (1 <<< w)) Zeta8.zero).sub (amps.getD j Zeta8.zero)
      else
        (amps.getD j Zeta8.zero).add (amps.getD (j ^^^ (1 <<< w)) Zeta8.zero)
  | .x w => (List.range L).map fun j => amps.getD (j ^^^ (1 <<< w)) Zeta8.zero
  | .z w => (List.range L).map fun j =>
      if j.testBit w then (amps.getD j Zeta8.zero).neg else amps.getD j Zeta8.zero
  | .t w => (List.range L).map fun j =>
      if j.testBit w then (amps.getD j Zeta8.zero).mulOmega else amps.getD j Zeta8.zero
  | .tdg w => (List.range L).map fun j =>
      if j.testBit w then (amps.getD j Zeta8.zero).mulOmegaInv else amps.getD j Zeta8.zero
  | .cz a b => (List.range L).map fun j =>
      if j.testBit a && j.testBit b then (amps.getD j Zeta8.zero).neg
      else amps.getD j Zeta8.zero

def simulate (gs : List G) (amps : List Zeta8) : List Zeta8 :=
  gs.foldl (fun s g => applyG g s) amps

/-- Basis state `|i>` on `q` wires. -/
def basisState (q i : Nat) : List Zeta8 :=
  (List.range (2 ^ q)).map fun j => if j = i then Zeta8.ofInt 1 else Zeta8.zero

/-- Number of Hadamard gates in a gate list (each contributes one factor of
`sqrt 2` to the implicit global denominator). -/
def hCount (gs : List G) : Nat :=
  gs.countP fun g => match g with | .h _ => true | _ => false

/-- Embeds `_cnot`: `CNOT(c,t) = H(t) - CZ(c,t) - H(t)`. -/
def cnot (c t : Nat) : List G := [G.h t, G.cz c t, G.h t]

/-- Embeds `_ccx`: the source's Toffoli decomposition over CNOT, T, Tdg, H. -/
def ccx (a b t : Nat) : List G :=
  [G.h t] ++
  cnot b t ++ [G.tdg t] ++
  cnot a t ++ [G.t t] ++
  cnot b t ++ [G.tdg t] ++
  cnot a t ++ [G.t b, G.t t] ++
  [G.h t] ++
  cnot a b ++ [G.t a, G.tdg b] ++ cnot a b

/-- The op alphabet `_cmz` emits: its `_ccx` subroutine calls, the native
`CZ`, and the bare `Z` of the zero-control case. -/
inductive Op where
  | ccx (a b t : Nat)
  | cz (a b : Nat)
  | z (q : Nat)
deriving DecidableEq, Repr

/-- Native-gate expansion of one op (a `_ccx` call expands to its gate
list; `CZ` and `Z` are single gates). -/
def gatesOfOp : Op → List G
  | .ccx a b t => ccx a b t
  | .cz a b => [G.cz a b]
  | .z q => [G.z q]

def gatesOfOps (ops : List Op) : List G := ops.flatMap gatesOfOp

/-- The `ValueError` message `_cmz` raises when too few ancillas are
supplied, stating the required count. -/
def cmz_error_msg (need got : Nat) : String :=
  s!"not enough ancillas for cmz: need {need}, got {got}"

/-- Embeds `_cmz`: multi-controlled Z on `target` via the ancilla AND-ladder.
Mirrors the source: `m = 0` gives `Z(target)`, `m = 1` gives
`CZ(controls[0], target)`, otherwise the Toffoli compute ladder, a `CZ`
from the last ancilla, and the ladder uncomputed in reverse order.
Raises (returns `.error`) when fewer than `m - 1` ancillas are supplied,
before any ladder op is emitted. -/
def cmz (controls : List Nat) (target : Nat) (ancillas : List Nat) :
    Except String (List Op) :=
  let m := controls.length
  if m = 0 then .ok [Op.z target]
  else if m = 1 then .ok [Op.cz (controls.getD 0 0) target]
  else
    let need := m - 1
    let got := ancillas.length
    if got < need then
      .error (cmz_error_msg need got)
    else
      let first := Op.ccx (controls.getD 0 0) (controls.getD 1 0) (ancillas.getD 0 0)
      let ladder := (List.range' 2 (m - 2)).map fun i =>
        Op.ccx (ancillas.getD (i - 2) 0) (controls.getD i 0) (ancillas.getD (i - 1) 0)
      let unc := (List.range' 2 (m - 2)).reverse.map fun i =>
        Op.ccx (ancillas.getD (i - 2) 0) (controls.getD i 0) (ancillas.getD (i - 1) 0)
      .ok ((first :: ladder) ++
           [Op.cz (ancillas.getD (need - 1) 0) target] ++
           (unc ++ [first]))

/-- Embeds `_bits_of_int`: LSB-first bit list of `x` (Python `(x >> i) & 1`,
arithmetic shift and mask, i.e. floor division and Euclidean mod). -/
def bits_of_int (x : Int) (n : Nat) : List Int :=
  (List.range n).map fun i => (x.fdiv (2 ^ i)).emod 2

/-- The `for t in targets` loop body of `_oracle_phase_flip` for `n >= 2`
active wires: for each target, X-conjugate the zero bits around a `_cmz`
over the given controls, phase target and ancillas, appending the gates of
each iteration in order. -/
def oracle_targets (active_qubits controls : List Nat) (target_q : Nat)
    (anc_use : List Nat) : List Int → Except String (List G)
  | [] => .ok []
  | t :: ts => do
      let bits := bits_of_int t active_qubits.length
      let xs := (active_qubits.zip bits).filterMap fun p =>
        if p.2 = 0 then some (G.x p.1) else none
      let ops ← cmz controls target_q anc_use
      let rest ← oracle_targets active_qubits controls target_q anc_use ts
      pure (xs ++ gatesOfOps ops ++ xs ++ rest)

/-- Embeds `_oracle_phase_flip`: for each target, X-conjugate the zero bits and
apply `_cmz` over all active wires (first `n-1` as controls, last as the
phase target); `n = 1` uses the direct X-Z-X / Z pattern. -/
def oracle_phase_flip (active_qubits : List Nat) (ancillas : List Nat)
    (targets : List Int) : Except String (List G) :=
  let n := active_qubits.length
  if n = 0 then .ok []
  else if n = 1 then
    .ok (targets.flatMap fun t =>
      if t.emod 2 = 0 then
        [G.x (active_qubits.getD 0 0), G.z (active_qubits.getD 0 0),
         G.x (active_qubits.getD 0 0)]
      else
        [G.z (active_qubits.getD 0 0)])
  else
    let controls := active_qubits.dropLast
    let target_q := active_qubits.getLastD 0
    let need_anc := controls.length - 1
    let anc_use := ancillas.take need_anc
    oracle_targets active_qubits controls target_q anc_use targets

/-- Embeds `_diffusion`: `H^n X^n C^{n-1}Z X^n H^n`; `n = 1` uses the direct
pattern. -/
def diffusion (active_qubits : List Nat) (ancillas : List Nat) :
    Except String (List G) :=
  let n := active_qubits.length
  if n = 0 then .ok []
  else if n = 1 then
    .ok [G.h (active_qubits.getD 0 0), G.x (active_qubits.getD 0 0),
         G.z (active_qubits.getD 0 0), G.x (active_qubits.getD 0 0),
         G.h (active_qubits.getD 0 0)]
  else
    let controls := active_qubits.dropLast
    let target_q := active_qubits.getLastD 0
    let need_anc := controls.length - 1
    let anc_use := ancillas.take need_anc
    do
      let ops ← cmz controls target_q anc_use
      pure (active_qubits.map G.h ++ active_qubits.map G.x ++
            gatesOfOps ops ++
            active_qubits.map G.x ++ active_qubits.map G.h)

/-- Simulation of `_oracle_phase_flip({t})` applied to the uniform
superposition over `n` active wires `[0, n)`: prepare `H` on each active
wire from `|0...0>`, then run the oracle's gates, with the
`max(0, n - 2)` ancilla wires placed at `[n, n + (n - 2))`.  Returns the
`ZZ[omega]` numerator vector (`none` if the oracle raised). -/
def oracle_on_uniform (n t : Nat) : Option (List Zeta8) :=
  match oracle_phase_flip (List.range n) (List.range' n (n - 2)) [(t : Int)] with
  | .error _ => none
  | .ok gs =>
      some (simulate ((List.range n).map G.h ++ gs) (basisState (n + (n - 2)) 0))

/-- What the spec says `oracle({t})` does to the uniform superposition:
the amplitude of basis state `t` is multiplied by `-1` and every other
amplitude is unchanged (ancilla wires stay `|0>`, so amplitudes with a
nonzero ancilla part stay zero).  Stated at the same global
`sqrt 2 ^ (n + hCount)` scale as the simulation. -/
def oracle_flip_spec (n t : Nat) : Option (List Zeta8) :=
  match oracle_phase_flip (List.range n) (List.range' n (n - 2)) [(t : Int)] with
  | .error _ => none
  | .ok gs =>
      let p := hCount gs / 2
      some ((List.range (2 ^ (n + (n - 2)))).map fun j =>
        if j < 2 ^ n then
          (if j = t then Zeta8.ofInt (-(2 ^ p)) else Zeta8.ofInt (2 ^ p))
        else Zeta8.zero)

/-! Packed-state simulator.  For the kernel to evaluate 6-wire simulations
in reasonable time, a state vector is also represented as a single natural
number: basis index `j` occupies bits `[128*j, 128*(j+1))`, holding the four
`ZZ[omega]` coordinates of the amplitude in four 32-bit fields, each stored
with bias `2^30` (coordinate `x` is stored as `x + 2^30`; every coordinate
arising in the simulated circuits has `|x| <= 2^28`, so field arithmetic
never carries across field boundaries).  The cell-level operations below
implement exactly `Zeta8.add`, `Zeta8.sub`, `Zeta8.neg`, `Zeta8.mulOmega`
and `Zeta8.mulOmegaInv` under this encoding, and `applyGP` mirrors
`applyG` cell by cell; the agreement theorems following the definitions
check the two simulators against each other. -/

/-- The bias added to each stored coordinate field. -/
def bias : Nat := 2 ^ 30

/-- The constant with `1` at each of the four 32-bit field offsets of one cell. -/
def onesK : Nat := 1 + 2 ^ 32 + 2 ^ 64 + 2 ^ 96

/-- Cell-level `Zeta8.add`: `(x+B) + (y+B) - B = (x+y) + B` per field. -/
def cadd (x y : Nat) : Nat := x + y - onesK * bias

/-- Cell-level `Zeta8.sub`: `(x+B) + B - (y+B) = (x-y) + B` per field. -/
def csub (x y : Nat) : Nat := x + onesK * bias - y

/-- Cell-level `Zeta8.neg`: `2B - (x+B) = (-x) + B` per field. -/
def cneg (x : Nat) : Nat := onesK * (2 * bias) - x

/-- Cell-level `Zeta8.mulOmega`: `(a,b,c,d) -> (-d,a,b,c)`. -/
def cmulOmega (x : Nat) : Nat :=
  ((x &&& (2 ^ 96 - 1)) <<< 32) ||| (2 * bias - (x >>> 96))

/-- Cell-level `Zeta8.mulOmegaInv`: `(a,b,c,d) -> (b,c,d,-a)`. -/
def cmulOmegaInv (x : Nat) : Nat :=
  (x >>> 32) ||| ((2 * bias - (x &&& (2 ^ 32 - 1))) <<< 96)

/-- Extract cell `j` (the amplitude of basis state `j`). -/
def getC (S j : Nat) : Nat := (S >>> (128 * j)) &&& (2 ^ 128 - 1)

/-- The packed new amplitude of basis state `j` after gate `g`, mirroring
`applyG` cell by cell. -/
def cellOf (g : G) (S j : Nat) : Nat :=
  match g with
  | .h w => if j.testBit w then csub (getC S (j ^^^ (1 <<< w))) (getC S j)
            else cadd (getC S j) (getC S (j ^^^ (1 <<< w)))
  | .x w => getC S (j ^^^ (1 <<< w))
  | .z w => if j.testBit w then cneg (getC S j) else getC S j
  | .t w => if j.testBit w then cmulOmega (getC S j) else getC S j
  | .tdg w => if j.testBit w then cmulOmegaInv (getC S j) else getC S j
  | .cz a b => if j.testBit a && j.testBit b then cneg (getC S j) else getC S j

/-- Assemble `f j <<< (128 * j)` for `j` in `[lo, lo + 2^d)` as a balanced
tree of `|||` (balanced so kernel reduction stays shallow). -/
def packTree (f : Nat → Nat) : Nat → Nat → Nat
  | 0, lo => f lo <<< (128 * lo)
  | d + 1, lo => packTree f d lo ||| packTree f d (lo + 2 ^ d)

/-- Packed analogue of `applyG` on a `q`-wire state. -/
def applyGP (q : Nat) (g : G) (S : Nat) : Nat :=
  packTree (fun j => cellOf g S j) q 0

/-- Packed analogue of `simulate`. -/
def simulateP (q : Nat) (gs : List G) (S : Nat) : Nat :=
  gs.foldl (fun s g => applyGP q g s) S

/-- Encode a `List Zeta8` state vector into its packed representation. -/
def encodeState : List Zeta8 → Nat
  | [] => 0
  | z :: r =>
      ((z.a + (bias : Int)).toNat ||| ((z.b + (bias : Int)).toNat <<< 32) |||
       ((z.c + (bias : Int)).toNat <<< 64) ||| ((z.d + (bias : Int)).toNat <<< 96)) |||
      (encodeState r <<< 128)

/-- Packed version of `oracle_on_uniform`. -/
def oracle_on_uniform_packed (n t : Nat) : Option Nat :=
  match oracle_phase_flip (List.range n) (List.range' n (n - 2)) [(t : Int)] with
  | .error _ => none
  | .ok gs =>
      some (simulateP (n + (n - 2)) ((List.range n).map G.h ++ gs)
        (encodeState (basisState (n + (n - 2)) 0)))

/-- Packed encoding of the spec-side expected state `oracle_flip_spec`. -/
def oracle_flip_spec_packed (n t : Nat) : Option Nat :=
  (oracle_flip_spec n t).map encodeState

/-- A built program: the appended gate sequence followed by the measurement
declarations (wire, output channel). -/
structure Prog where
  gates : List G
  meas : List (Nat × Nat)
deriving DecidableEq, Repr

/-- The ancilla wires `build_grover_prog` allocates:
`range(ancilla_start, ancilla_start + max(0, active_nbits - 2))` with
`ancilla_start` defaulting to `nbits_max`. -/
def grover_ancillas (active_nbits nbits_max : Int) (ancilla_start : Option Nat) :
    List Nat :=
  let a := max 1 active_nbits
  let start := ancilla_start.getD nbits_max.toNat
  List.range' start (a.toNat - 2)

/-- The `for _ in range(grover_iters)` loop body of `build_grover_prog`:
each iteration appends one oracle and one diffusion pass. -/
def grover_loop (active_qubits ancillas : List Nat) (targets : List Int) :
    Nat → Except String (List G)
  | 0 => .ok []
  | k + 1 => do
      let og ← oracle_phase_flip active_qubits ancillas targets
      let dg ← diffusion active_qubits ancillas
      let rest ← grover_loop active_qubits ancillas targets k
      pure (og ++ dg ++ rest)

/-- Embeds `build_grover_prog`: clamp `active_nbits` to at least 1, reject when it
exceeds `nbits_max`, allocate ancillas from `ancilla_start` (default
`nbits_max`), prepare H on every active wire, run the Grover loop, then
declare `measure(i, i)` for every `i < nbits_max`. -/
def build_grover_prog (active_nbits nbits_max : Int) (targets : List Int)
    (grover_iters : Int) (ancilla_start : Option Nat) : Except String Prog :=
  let a := max 1 active_nbits
  if a > nbits_max then
    .error "active_nbits must be <= nbits_max (measured bits)"
  else
    let active_qubits := List.range a.toNat
    let ancillas := grover_ancillas active_nbits nbits_max ancilla_start
    do
      let body ← grover_loop active_qubits ancillas targets grover_iters.toNat
      pure { gates := active_qubits.map G.h ++ body,
             meas := (List.range nbits_max.toNat).map fun i => (i, i) }

/-! Basis-state semantics of the op alphabet.  Each op maps a computational
basis state (a wire valuation) to a basis state together with a sign:
a Toffoli flips its target bit when both controls are set (the action its
gate expansion realizes on basis states, cf. the truth-table theorem
below), `CZ` contributes a `-1` phase exactly when both wires are set, and
`Z` exactly when its wire is set. -/

/-- Classical state action of one op on a wire valuation. -/
def opState : Op → (Nat → Bool) → (Nat → Bool)
  | .ccx a b t, s => Function.update s t ((s a && s b).xor (s t))
  | .cz _ _, s => s
  | .z _, s => s

/-- Phase contribution (`true` means a factor `-1`) of one op, evaluated at
the incoming basis state. -/
def opPhase : Op → (Nat → Bool) → Bool
  | .ccx _ _ _, _ => false
  | .cz a b, s => s a && s b
  | .z q, s => s q

/-- Final basis state after a list of ops. -/
def runState : List Op → (Nat → Bool) → (Nat → Bool)
  | [], s => s
  | o :: ops, s => runState ops (opState o s)

/-- Accumulated sign after a list of ops (`true` means a net `-1`). -/
def runPhase : List Op → (Nat → Bool) → Bool
  | [], _ => false
  | o :: ops, s => (opPhase o s).xor (runPhase ops (opState o s))

/-- The sign `cmz` puts on a basis state (`none` if `cmz` raised). -/
def cmzPhase (controls : List Nat) (target : Nat) (ancillas : List Nat)
    (s : Nat → Bool) : Option Bool :=
  match cmz controls target ancillas with
  | .ok ops => some (runPhase ops s)
  | .error _ => none

/-- The compute half of the `_cmz` Toffoli AND-ladder, with `k` follow-on
rungs after the initial `ccx(controls[0], controls[1], ancillas[0])`. -/
def ladderOps (controls ancillas : List Nat) (k : Nat) : List Op :=
  Op.ccx (controls.getD 0 0) (controls.getD 1 0) (ancillas.getD 0 0) ::
    (List.range' 2 k).map fun i =>
      Op.ccx (ancillas.getD (i - 2) 0) (controls.getD i 0) (ancillas.getD (i - 1) 0)

/-- The basis state used by the counterexample to the stated C4: both
controls `0, 1` set, target `2` and ancilla `3` clear. -/
def c4state : Nat → Bool := fun w => decide (w < 2)

/-- Block encoding from `01_build_low_selectivity_plan.py`:
`block_id = global >> b`, `local = global & ((1 << b) - 1)`. -/
def block_encode (globalIdx b : Nat) : Nat × Nat :=
  (globalIdx >>> b, globalIdx &&& ((1 <<< b) - 1))

/-- Block decoding from `02_run_low_selectivity_jobs.py`:
`global = (block_id << b) | local`. -/
def block_decode (block_id localIdx b : Nat) : Nat :=
  (block_id <<< b) ||| localIdx

/-- Embeds `decode_index_from_bitstring`: reconstruct the local index from a
measured bitstring under a (possibly partial) wire-to-position mapping;
a missing or out-of-range position contributes bit `0` silently and raises
no error.  The Python `for qi in range(active_nbits)` loop accumulating
`idx |= bit << qi` is embedded as recursion on `active_nbits`, the step
handling iteration `qi = n`. -/
def decode_index_from_bitstring (bitstr : List Char)
    (qubit_to_pos : Nat → Option Int) : Nat → Nat
  | 0 => 0
  | n + 1 =>
      let idx := decode_index_from_bitstring bitstr qubit_to_pos n
      match qubit_to_pos n with
      | none => idx
      | some pos =>
          if pos < 0 ∨ (bitstr.length : Int) ≤ pos then idx
          else
            let bit := if bitstr.getD pos.toNat ' ' = '1' then 1 else 0
            idx ||| (bit <<< n)

/-- What the spec says bit `i` of the decoded index is: the character at
position `mapping[i]` when that position is defined and in range, else 0. -/
def decode_bit_spec (bitstr : List Char) (qubit_to_pos : Nat → Option Int)
    (i : Nat) : Bool :=
  match qubit_to_pos i with
  | none => false
  | some pos =>
      if pos < 0 ∨ (bitstr.length : Int) ≤ pos then false
      else bitstr.getD pos.toNat ' ' = '1'

/-- The mapping `{0: 2, 1: 0, 2: 1}` of the C6 worked example. -/
def qubit_to_pos_example : Nat → Option Int := fun i =>
  if i = 0 then some 2 else if i = 1 then some 0 else if i = 2 then some 1
  else none

deriving instance DecidableEq for Except

/-- The CCX truth table: flip the target bit (wire 2) exactly when both
control bits (wires 0 and 1) are set. -/
def ccxTruthSpec (x : Nat) : Nat := if x &&& 3 = 3 then x ^^^ 4 else x

/-! Agreement checks between the transparent and the packed simulator:
the full single-target oracle circuits for `n = 1, 2` (every target), and a
gate list exercising every gate constructor, agree under `encodeState`. -/

theorem packed_agrees_oracle_n1_n2 :
    ∀ n : Nat, n < 3 → 1 ≤ n → ∀ t : Nat, t < 2 ^ n →
    (oracle_on_uniform n t).map encodeState = oracle_on_uniform_packed n t := by
  decide

theorem packed_agrees_all_gates :
    ∀ x : Nat, x < 4 →
    encodeState (simulate [G.h 0, G.x 1, G.z 0, G.t 1, G.tdg 0, G.cz 0 1, G.h 1]
        (basisState 2 x)) =
    simulateP 2 [G.h 0, G.x 1, G.z 0, G.t 1, G.tdg 0, G.cz 0 1, G.h 1]
        (encodeState (basisState 2 x)) := by
  decide

/-! The C1 oracle simulations, one kernel computation per declaration
(one per pair of `n` active wires and marked basis state `t`). -/

theorem c1_case_1_0 :
    oracle_on_uniform_packed 1 0 = oracle_flip_spec_packed 1 0 := by
  decide!

theorem c1_case_1_1 :
    oracle_on_uniform_packed 1 1 = oracle_flip_spec_packed 1 1 := by
  decide!

theorem c1_case_2_0 :
    oracle_on_uniform_packed 2 0 = oracle_flip_spec_packed 2 0 := by
  decide!

theorem c1_case_2_1 :
    oracle_on_uniform_packed 2 1 = oracle_flip_spec_packed 2 1 := by
  decide!

theorem c1_case_2_2 :
    oracle_on_uniform_packed 2 2 = oracle_flip_spec_packed 2 2 := by
  decide!

theorem c1_case_2_3 :
    oracle_on_uniform_packed 2 3 = oracle_flip_spec_packed 2 3 := by
  decide!

theorem c1_case_3_0 :
    oracle_on_uniform_packed 3 0 = oracle_flip_spec_packed 3 0 := by
  decide!

theorem c1_case_3_1 :
    oracle_on_uniform_packed 3 1 = oracle_flip_spec_packed 3 1 := by
  decide!

theorem c1_case_3_2 :
    oracle_on_uniform_packed 3 2 = oracle_flip_spec_packed 3 2 := by
  decide!

theorem c1_case_3_3 :
    oracle_on_uniform_packed 3 3 = oracle_flip_spec_packed 3 3 := by
  decide!

theorem c1_case_3_4 :
    oracle_on_uniform_packed 3 4 = oracle_flip_spec_packed 3 4 := by
  decide!

theorem c1_case_3_5 :
    oracle_on_uniform_packed 3 5 = oracle_flip_spec_packed 3 5 := by
  decide!

theorem c1_case_3_6 :
    oracle_on_uniform_packed 3 6 = oracle_flip_spec_packed 3 6 := by
  decide!

theorem c1_case_3_7 :
    oracle_on_uniform_packed 3 7 = oracle_flip_spec_packed 3 7 := by
  decide!

theorem c1_case_4_0 :
    oracle_on_uniform_packed 4 0 = oracle_flip_spec_packed 4 0 := by
  decide!

theorem c1_case_4_1 :
    oracle_on_uniform_packed 4 1 = oracle_flip_spec_packed 4 1 := by
  decide!

theorem c1_case_4_2 :
    oracle_on_uniform_packed 4 2 = oracle_flip_spec_packed 4 2 := by
  decide!

theorem c1_case_4_3 :
    oracle_on_uniform_packed 4 3 = oracle_flip_spec_packed 4 3 := by
  decide!

theorem c1_case_4_4 :
    oracle_on_uniform_packed 4 4 = oracle_flip_spec_packed 4 4 := by
  decide!

theorem c1_case_4_5 :
    oracle_on_uniform_packed 4 5 = oracle_flip_spec_packed 4 5 := by
  decide!

theorem c1_case_4_6 :
    oracle_on_uniform_packed 4 6 = oracle_flip_spec_packed 4 6 := by
  decide!

theorem c1_case_4_7 :
    oracle_on_uniform_packed 4 7 = oracle_flip_spec_packed 4 7 := by
  decide!

theorem c1_case_4_8 :
    oracle_on_uniform_packed 4 8 = oracle_flip_spec_packed 4 8 := by
  decide!

theorem c1_case_4_9 :
    oracle_on_uniform_packed 4 9 = oracle_flip_spec_packed 4 9 := by
  decide!

theorem c1_case_4_10 :
    oracle_on_uniform_packed 4 10 = oracle_flip_spec_packed 4 10 := by
  decide!

theorem c1_case_4_11 :
    oracle_on_uniform_packed 4 11 = oracle_flip_spec_packed 4 11 := by
  decide!

theorem c1_case_4_12 :
    oracle_on_uniform_packed 4 12 = oracle_flip_spec_packed 4 12 := by
  decide!

theorem c1_case_4_13 :
    oracle_on_uniform_packed 4 13 = oracle_flip_spec_packed 4 13 := by
  decide!

theorem c1_case_4_14 :
    oracle_on_uniform_packed 4 14 = oracle_flip_spec_packed 4 14 := by
  decide!

theorem c1_case_4_15 :
    oracle_on_uniform_packed 4 15 = oracle_flip_spec_packed 4 15 := by
  decide!

/-- C1: for every `n` in `[1,4]` and every target `t` in `[0, 2^n)`, the
oracle built for the single-element target set `{t}`, applied to the
uniform superposition over the `n` active wires, multiplies the amplitude
of exactly basis state `t` by `-1` and leaves every other basis state's
amplitude unchanged (ancilla wires remain `|0>`); for an empty target list
the oracle emits no gates and raises no error. -/
theorem C1_oracle_phase_flip_uniform :
    ∀ n : Nat, n < 5 → 1 ≤ n →
    (∀ t : Nat, t < 2 ^ n →
      oracle_on_uniform_packed n t = oracle_flip_spec_packed n t) ∧
    oracle_phase_flip (List.range n) (List.range' n (n - 2)) [] = .ok [] := by
  intro n h5 h1
  interval_cases n
  · refine ⟨fun t ht => ?_, by decide⟩
    interval_cases t
    · exact c1_case_1_0
    · exact c1_case_1_1
  · refine ⟨fun t ht => ?_, by decide⟩
    interval_cases t
    · exact c1_case_2_0
    · exact c1_case_2_1
    · exact c1_case_2_2
    · exact c1_case_2_3
  · refine ⟨fun t ht => ?_, by decide⟩
    interval_cases t
    · exact c1_case_3_0
    · exact c1_case_3_1
    · exact c1_case_3_2
    · exact c1_case_3_3
    · exact c1_case_3_4
    · exact c1_case_3_5
    · exact c1_case_3_6
    · exact c1_case_3_7
  · refine ⟨fun t ht => ?_, by decide⟩
    interval_cases t
    · exact c1_case_4_0
    · exact c1_case_4_1
    · exact c1_case_4_2
    · exact c1_case_4_3
    · exact c1_case_4_4
    · exact c1_case_4_5
    · exact c1_case_4_6
    · exact c1_case_4_7
    · exact c1_case_4_8
    · exact c1_case_4_9
    · exact c1_case_4_10
    · exact c1_case_4_11
    · exact c1_case_4_12
    · exact c1_case_4_13
    · exact c1_case_4_14
    · exact c1_case_4_15

/-- C1 witness: the theorem instantiated at `n = 4`, `t = 11`. -/
theorem C1_witness :
    (4 < 5 ∧ 1 ≤ 4 ∧ 11 < 2 ^ 4) ∧
    oracle_on_uniform_packed 4 11 = oracle_flip_spec_packed 4 11 :=
  ⟨⟨by decide, by decide, by decide⟩,
   ((C1_oracle_phase_flip_uniform 4 (by decide) (by decide)).1 11 (by decide))⟩

/-- C3: `_ccx(a, b, t)` emits exactly the claimed gate sequence
`H(t); CNOT(b,t); Tdg(t); CNOT(a,t); T(t); CNOT(b,t); Tdg(t); CNOT(a,t);
T(b); T(t); H(t); CNOT(a,b); T(a); Tdg(b); CNOT(a,b)` with each CNOT
expanded as `H(target); CZ; H(target)`, and the resulting unitary
reproduces the Toffoli truth table on all 8 three-qubit basis inputs
exactly (global phase `1`). -/
theorem C3_ccx_sequence_and_truth_table :
    (∀ a b t : Nat, ccx a b t =
      [G.h t,
       G.h t, G.cz b t, G.h t, G.tdg t,
       G.h t, G.cz a t, G.h t, G.t t,
       G.h t, G.cz b t, G.h t, G.tdg t,
       G.h t, G.cz a t, G.h t, G.t b, G.t t,
       G.h t,
       G.h b, G.cz a b, G.h b, G.t a, G.tdg b,
       G.h b, G.cz a b, G.h b]) ∧
    (∀ x : Nat, x < 8 →
      simulate (ccx 0 1 2) (basisState 3 x) =
      (List.range 8).map fun j =>
        if j = ccxTruthSpec x then Zeta8.ofInt 128 else Zeta8.zero) := by
  exact ⟨fun a b t => rfl, by decide⟩

/-- C3 witness: the truth-table part instantiated at basis input
`x = 7 = |111>`, whose image is `|011>` (target bit flipped). -/
theorem C3_witness :
    (7 < 8 ∧ ccxTruthSpec 7 = 3) ∧
    simulate (ccx 0 1 2) (basisState 3 7) =
    (List.range 8).map
      (fun j => if j = ccxTruthSpec 7 then Zeta8.ofInt 128 else Zeta8.zero) :=
  ⟨⟨by decide, by decide⟩, (C3_ccx_sequence_and_truth_table.2 7 (by decide))⟩

theorem runState_append (l1 l2 : List Op) (s : Nat → Bool) :
    runState (l1 ++ l2) s = runState l2 (runState l1 s) := by
  induction l1 generalizing s with
  | nil => rfl
  | cons o l ih => simpa only [List.cons_append, runState] using ih (opState o s)

theorem runPhase_append (l1 l2 : List Op) (s : Nat → Bool) :
    runPhase (l1 ++ l2) s =
      ((runPhase l1 s).xor (runPhase l2 (runState l1 s))) := by
  induction l1 generalizing s with
  | nil => simp [runPhase, runState]
  | cons o l ih =>
      simp only [List.cons_append, runPhase, runState, List.append_eq,
        Bool.xor_assoc]
      rw [ih]

theorem runState_singleton (o : Op) (s : Nat → Bool) :
    runState [o] s = opState o s := rfl

theorem runPhase_singleton (o : Op) (s : Nat → Bool) :
    runPhase [o] s = opPhase o s := by
  simp [runPhase, Bool.xor_false]

theorem opState_cz (a b : Nat) (s : Nat → Bool) :
    opState (Op.cz a b) s = s := rfl

theorem opState_ccx_invol (a b t : Nat) (ha : t ≠ a) (hb : t ≠ b)
    (s : Nat → Bool) :
    opState (Op.ccx a b t) (opState (Op.ccx a b t) s) = s := by
  have hxor : ∀ c y : Bool, c.xor (c.xor y) = y := by decide
  simp only [opState]
  rw [Function.update_same, Function.update_noteq (Ne.symm ha),
    Function.update_noteq (Ne.symm hb), hxor, Function.update_idem,
    Function.update_eq_self]

theorem runState_reverse_cancel (L : List Op)
    (h : ∀ o ∈ L, ∀ u, opState o (opState o u) = u) :
    ∀ s, runState L.reverse (runState L s) = s := by
  induction L with
  | nil => intro s; rfl
  | cons o l ih =>
      intro s
      have ho := h o (List.mem_cons_self o l)
      have hl : ∀ o2 ∈ l, ∀ u, opState o2 (opState o2 u) = u :=
        fun o2 ho2 => h o2 (List.mem_cons_of_mem _ ho2)
      simp only [List.reverse_cons, runState]
      rw [runState_append]
      simp only [runState]
      rw [ih hl (opState o s), ho]

theorem runPhase_of_phase_free (L : List Op)
    (h : ∀ o ∈ L, ∀ u : Nat → Bool, opPhase o u = false) :
    ∀ s, runPhase L s = false := by
  induction L with
  | nil => intro s; rfl
  | cons o l ih =>
      intro s
      have ho := h o (List.mem_cons_self o l) s
      have hl : ∀ o2 ∈ l, ∀ u : Nat → Bool, opPhase o2 u = false :=
        fun o2 ho2 => h o2 (List.mem_cons_of_mem _ ho2)
      simp only [runPhase, ho, ih hl, Bool.xor_false]

theorem getD_mem_of_lt (l : List Nat) (i : Nat) (h : i < l.length) :
    l.getD i 0 ∈ l := by
  rw [List.getD_eq_getElem l 0 h]
  exact List.getElem_mem h

theorem getD_inj_of_nodup (l : List Nat) (hl : l.Nodup) (i j : Nat)
    (hi : i < l.length) (hj : j < l.length) (hne : i ≠ j) :
    l.getD i 0 ≠ l.getD j 0 := by
  rw [List.getD_eq_getElem l 0 hi, List.getD_eq_getElem l 0 hj]
  intro he
  exact hne (hl.getElem_inj_iff.mp he)

theorem all_take_succ (l : List Nat) (p : Nat → Bool) (k : Nat)
    (hk : k < l.length) :
    (l.take (k + 1)).all p = ((l.take k).all p && p (l.getD k 0)) := by
  rw [List.take_succ, List.all_append, List.getD_eq_getElem l 0 hk,
    List.getElem?_eq_getElem hk]
  simp

/-- Invariant of the compute half of the `_cmz` ladder: after the first
`k + 1` Toffolis, ancilla `j` (for `j ≤ k`) holds the AND of the first
`j + 2` controls, and every other wire is unchanged. -/
theorem ladder_inv (controls ancillas : List Nat) (s : Nat → Bool)
    (hndA : ancillas.Nodup)
    (hdisj : ∀ c ∈ controls, c ∉ ancillas)
    (hanc : ∀ a ∈ ancillas, s a = false)
    (hlen : controls.length - 1 ≤ ancillas.length)
    (hm : 2 ≤ controls.length) :
    ∀ k, k + 2 ≤ controls.length →
      (∀ w, (∀ j, j ≤ k → w ≠ ancillas.getD j 0) →
        runState (ladderOps controls ancillas k) s w = s w) ∧
      (∀ j, j ≤ k →
        runState (ladderOps controls ancillas k) s (ancillas.getD j 0) =
          (controls.take (j + 2)).all s) := by
  intro k
  induction k with
  | zero =>
      intro hk
      have h0len : 0 < ancillas.length := by omega
      have hA0 : s (ancillas.getD 0 0) = false :=
        hanc _ (getD_mem_of_lt _ _ h0len)
      have hlad0 : ladderOps controls ancillas 0 =
          [Op.ccx (controls.getD 0 0) (controls.getD 1 0)
            (ancillas.getD 0 0)] := rfl
      constructor
      · intro w hw
        rw [hlad0, runState_singleton]
        simp only [opState]
        exact Function.update_noteq (hw 0 le_rfl) _ _
      · intro j hj
        obtain rfl : j = 0 := Nat.le_zero.mp hj
        rw [hlad0, runState_singleton]
        simp only [opState, Function.update_same]
        rw [hA0, Bool.xor_false]
        have h1 : (1 : Nat) < controls.length := by omega
        have h0 : (0 : Nat) < controls.length := by omega
        rw [all_take_succ _ _ 1 h1, all_take_succ _ _ 0 h0]
        simp
  | succ k ih =>
      intro hk
      have hk' : k + 2 ≤ controls.length := by omega
      obtain ⟨ih1, ih2⟩ := ih hk'
      have hsplit : ladderOps controls ancillas (k + 1) =
          ladderOps controls ancillas k ++
            [Op.ccx (ancillas.getD k 0) (controls.getD (k + 2) 0)
              (ancillas.getD (k + 1) 0)] := by
        simp only [ladderOps, List.range'_concat, List.map_append,
          List.map_cons, List.map_nil, List.cons_append]
        rw [show (2 + 1 * k - 2 : Nat) = k from by omega,
          show (2 + 1 * k - 1 : Nat) = k + 1 from by omega,
          show (2 + 1 * k : Nat) = k + 2 from by omega]
      have hkp1len : k + 1 < ancillas.length := by omega
      have hck2 : k + 2 < controls.length := by omega
      have hcne : ∀ j, j ≤ k → controls.getD (k + 2) 0 ≠ ancillas.getD j 0 := by
        intro j hj he
        exact hdisj _ (getD_mem_of_lt controls (k + 2) hck2)
          (by rw [he]; exact getD_mem_of_lt ancillas j (by omega))
      have hAne : ∀ j, j ≤ k →
          ancillas.getD (k + 1) 0 ≠ ancillas.getD j 0 := fun j hj =>
        getD_inj_of_nodup _ hndA _ _ hkp1len (by omega) (by omega)
      have hs1c := ih1 _ hcne
      have hs1A1 := ih1 _ hAne
      have hsA1 : s (ancillas.getD (k + 1) 0) = false :=
        hanc _ (getD_mem_of_lt _ _ hkp1len)
      have hs1Ak := ih2 k le_rfl
      rw [hsplit]
      constructor
      · intro w hw
        rw [runState_append, runState_singleton]
        simp only [opState]
        rw [Function.update_noteq (hw (k + 1) le_rfl)]
        exact ih1 w fun j hj => hw j (by omega)
      · intro j hj
        rw [runState_append, runState_singleton]
        simp only [opState]
        rcases Nat.lt_or_ge j (k + 1) with hjlt | hjge
        · have hjk : j ≤ k := by omega
          rw [Function.update_noteq (Ne.symm (hAne j hjk))]
          exact ih2 j hjk
        · obtain rfl : j = k + 1 := by omega
          rw [Function.update_same, hs1Ak, hs1c, hs1A1, hsA1, Bool.xor_false,
            all_take_succ controls s (k + 2) hck2]

/-- For `m >= 2` and enough ancillas, `_cmz` emits exactly its compute
ladder, the `CZ` on the last ancilla and target, and the reversed ladder. -/
theorem cmz_eq_ladder (controls ancillas : List Nat) (target : Nat)
    (hm : 2 ≤ controls.length) (hlen : controls.length - 1 ≤ ancillas.length) :
    cmz controls target ancillas =
      .ok (ladderOps controls ancillas (controls.length - 2) ++
           [Op.cz (ancillas.getD (controls.length - 2) 0) target] ++
           (ladderOps controls ancillas (controls.length - 2)).reverse) := by
  have h0 : ¬ controls.length = 0 := by omega
  have h1 : ¬ controls.length = 1 := by omega
  have h2 : ¬ ancillas.length < controls.length - 1 := by omega
  simp only [cmz, h0, h1, h2, if_false, ite_false]
  congr 1
  rw [show (controls.length - 1 - 1 : Nat) = controls.length - 2 from by omega]
  simp only [ladderOps, List.reverse_cons, List.map_reverse,
    List.cons_append, List.append_assoc]

/-- Running the full `_cmz` ladder sequence on a basis state with clear
ancillas: the state is restored exactly and the sign is `-1` precisely when
all controls and the target are set. -/
theorem cmz_run_ladder (controls ancillas : List Nat) (target : Nat)
    (s : Nat → Bool)
    (hm : 2 ≤ controls.length)
    (hnd : (controls ++ target :: ancillas).Nodup)
    (hlen : controls.length - 1 ≤ ancillas.length)
    (hanc : ∀ a ∈ ancillas, s a = false) :
    runState (ladderOps controls ancillas (controls.length - 2) ++
        [Op.cz (ancillas.getD (controls.length - 2) 0) target] ++
        (ladderOps controls ancillas (controls.length - 2)).reverse) s = s ∧
    runPhase (ladderOps controls ancillas (controls.length - 2) ++
        [Op.cz (ancillas.getD (controls.length - 2) 0) target] ++
        (ladderOps controls ancillas (controls.length - 2)).reverse) s =
      (controls.all s && s target) := by
  rw [List.nodup_append] at hnd
  obtain ⟨hndC, hndTA, hdisjCTA⟩ := hnd
  rw [List.nodup_cons] at hndTA
  obtain ⟨htnA, hndA⟩ := hndTA
  have hdisj : ∀ c ∈ controls, c ∉ ancillas := fun c hc ha =>
    hdisjCTA hc (List.mem_cons_of_mem _ ha)
  have hinv : ∀ o ∈ ladderOps controls ancillas (controls.length - 2),
      ∀ u, opState o (opState o u) = u := by
    intro o ho
    rcases List.mem_cons.mp ho with h | h
    · subst h
      intro u
      apply opState_ccx_invol
      · intro he
        exact hdisj _ (getD_mem_of_lt controls 0 (by omega))
          (by rw [← he]; exact getD_mem_of_lt ancillas 0 (by omega))
      · intro he
        exact hdisj _ (getD_mem_of_lt controls 1 (by omega))
          (by rw [← he]; exact getD_mem_of_lt ancillas 0 (by omega))
    · obtain ⟨i, hiR, rfl⟩ := List.mem_map.mp h
      have hi := List.mem_range'_1.mp hiR
      intro u
      apply opState_ccx_invol
      · exact getD_inj_of_nodup _ hndA _ _ (by omega) (by omega) (by omega)
      · intro he
        exact hdisj _ (getD_mem_of_lt controls i (by omega))
          (by rw [← he]; exact getD_mem_of_lt ancillas (i - 1) (by omega))
  have hshape : ∀ o ∈ ladderOps controls ancillas (controls.length - 2),
      ∀ u : Nat → Bool, opPhase o u = false := by
    intro o ho u
    rcases List.mem_cons.mp ho with h | h
    · subst h; rfl
    · obtain ⟨i, _, rfl⟩ := List.mem_map.mp h; rfl
  have hshapeR : ∀ o ∈ (ladderOps controls ancillas (controls.length - 2)).reverse,
      ∀ u : Nat → Bool, opPhase o u = false := fun o ho =>
    hshape o (List.mem_reverse.mp ho)
  obtain ⟨inv1, inv2⟩ :=
    ladder_inv controls ancillas s hndA hdisj hanc hlen hm
      (controls.length - 2) (by omega)
  have hs1last :
      runState (ladderOps controls ancillas (controls.length - 2)) s
        (ancillas.getD (controls.length - 2) 0) = controls.all s := by
    rw [inv2 (controls.length - 2) le_rfl,
      show (controls.length - 2 + 2 : Nat) = controls.length from by omega,
      List.take_length]
  have hs1t :
      runState (ladderOps controls ancillas (controls.length - 2)) s target =
        s target := by
    refine inv1 target fun j hj he => htnA ?_
    rw [he]
    exact getD_mem_of_lt ancillas j (by omega)
  constructor
  · rw [runState_append, runState_append, runState_singleton, opState_cz]
    exact runState_reverse_cancel _ hinv s
  · rw [runPhase_append, runPhase_append,
      runPhase_of_phase_free _ hshape s, runState_append,
      runState_singleton, opState_cz, runPhase_singleton,
      runPhase_of_phase_free _ hshapeR]
    simp only [opPhase, Bool.false_xor, Bool.xor_false]
    rw [hs1last, hs1t]

/-- Full basis-state characterization of `_cmz` for any number of controls:
with valid wiring and clear ancillas it restores the state exactly and
flips the sign precisely when all controls and the target are set. -/
theorem cmz_run_spec (controls : List Nat) (target : Nat)
    (ancillas : List Nat) (s : Nat → Bool)
    (hnd : (controls ++ target :: ancillas).Nodup)
    (hlen : controls.length - 1 ≤ ancillas.length)
    (hanc : ∀ a ∈ ancillas, s a = false) :
    ∃ ops, cmz controls target ancillas = .ok ops ∧
      runState ops s = s ∧ runPhase ops s = (controls.all s && s target) := by
  cases hlc : controls.length with
  | zero =>
      obtain rfl : controls = [] := List.length_eq_zero.mp hlc
      refine ⟨[Op.z target], rfl, rfl, ?_⟩
      simp [runPhase, opPhase, opState, runState]
  | succ n =>
      cases n with
      | zero =>
          obtain ⟨c, rfl⟩ := List.length_eq_one.mp hlc
          refine ⟨[Op.cz c target], rfl, rfl, ?_⟩
          simp [runPhase, opPhase, opState, runState]
      | succ n2 =>
          have hm : 2 ≤ controls.length := by omega
          obtain ⟨h1, h2⟩ :=
            cmz_run_ladder controls ancillas target s hm hnd hlen hanc
          exact ⟨_, cmz_eq_ladder controls ancillas target hm hlen, h1, h2⟩

/-- C2: for every `m >= 2` and every basis state with the ancillas in
`|0>`, `_cmz` emits its Toffoli compute ladder, the `CZ`, and the ladder
uncomputed in exactly reverse order; the run restores every wire (so there
is no entanglement with the rest of the register), and in particular every
ancilla wire ends in `|0>` again, ready for reuse. -/
theorem C2_cmz_ancilla_restoration :
    ∀ (controls : List Nat) (target : Nat) (ancillas : List Nat)
      (s : Nat → Bool),
      2 ≤ controls.length →
      (controls ++ target :: ancillas).Nodup →
      controls.length - 1 ≤ ancillas.length →
      (∀ a ∈ ancillas, s a = false) →
      ∃ comp, cmz controls target ancillas =
          .ok (comp ++ [Op.cz (ancillas.getD (controls.length - 2) 0) target] ++
               comp.reverse) ∧
        runState (comp ++
            [Op.cz (ancillas.getD (controls.length - 2) 0) target] ++
            comp.reverse) s = s ∧
        ∀ a ∈ ancillas,
          runState (comp ++
              [Op.cz (ancillas.getD (controls.length - 2) 0) target] ++
              comp.reverse) s a = false := by
  intro controls target ancillas s hm hnd hlen hanc
  obtain ⟨h1, _⟩ := cmz_run_ladder controls ancillas target s hm hnd hlen hanc
  refine ⟨ladderOps controls ancillas (controls.length - 2),
    cmz_eq_ladder controls ancillas target hm hlen, h1, ?_⟩
  intro a ha
  rw [h1]
  exact hanc a ha

/-- C2 witness: the theorem instantiated at `controls = [0,1,2]`,
`target = 3`, `ancillas = [4,5]`, with the basis state `|1111 00>`. -/
theorem C2_witness :
    (2 ≤ ([0, 1, 2] : List Nat).length ∧
     (([0, 1, 2] : List Nat) ++ 3 :: [4, 5]).Nodup ∧
     ([0, 1, 2] : List Nat).length - 1 ≤ ([4, 5] : List Nat).length ∧
     (∀ a ∈ ([4, 5] : List Nat), (fun w => decide (w ≤ 3)) a = false)) ∧
    ∃ comp, cmz [0, 1, 2] 3 [4, 5] =
        .ok (comp ++ [Op.cz (([4, 5] : List Nat).getD (([0, 1, 2] : List Nat).length - 2) 0) 3] ++
             comp.reverse) ∧
      runState (comp ++
          [Op.cz (([4, 5] : List Nat).getD (([0, 1, 2] : List Nat).length - 2) 0) 3] ++
          comp.reverse) (fun w => decide (w ≤ 3)) = (fun w => decide (w ≤ 3)) ∧
      ∀ a ∈ ([4, 5] : List Nat),
        runState (comp ++
            [Op.cz (([4, 5] : List Nat).getD (([0, 1, 2] : List Nat).length - 2) 0) 3] ++
            comp.reverse) (fun w => decide (w ≤ 3)) a = false :=
  ⟨⟨by decide, by decide, by decide, by decide⟩,
   C2_cmz_ancilla_restoration [0, 1, 2] 3 [4, 5] (fun w => decide (w ≤ 3))
     (by decide) (by decide) (by decide) (by decide)⟩

/-- C4 counterexample: with both controls set but the target clear, `_cmz`
applies no phase flip (`some false`), contradicting the claim that the
phase factor `-1` appears whenever all controls are `1` independent of the
target's state. -/
theorem C4_counterexample :
    c4state 0 = true ∧ c4state 1 = true ∧ c4state 2 = false ∧
    c4state 3 = false ∧
    cmzPhase [0, 1] 2 [3] c4state = some false := by
  decide

/-- C4 (amended): for `m <= 4` controls with `max(0, m-1)` clear ancillas
and valid wiring, `_cmz` acts as the identity on every basis state in which
at least one control is `0`, and applies the phase factor `-1` exactly when
all `m` controls AND the target are `1` (so for `m = 0` it is `Z(target)`,
and for `m = 1` the native `CZ(controls[0], target)`). -/
theorem C4_cmz_phase_amended :
    ∀ (controls : List Nat) (target : Nat) (ancillas : List Nat)
      (s : Nat → Bool),
      controls.length ≤ 4 →
      (controls ++ target :: ancillas).Nodup →
      controls.length - 1 ≤ ancillas.length →
      (∀ a ∈ ancillas, s a = false) →
      cmzPhase controls target ancillas s =
        some (controls.all s && s target) ∧
      ∃ ops, cmz controls target ancillas = .ok ops ∧ runState ops s = s := by
  intro controls target ancillas s _ hnd hlen hanc
  obtain ⟨ops, hok, hst, hph⟩ := cmz_run_spec controls target ancillas s hnd hlen hanc
  refine ⟨?_, ops, hok, hst⟩
  rw [cmzPhase, hok]
  exact congrArg some hph

/-- C4 witness: the amended theorem instantiated at `m = 3`,
`controls = [0,1,2]`, `target = 3`, `ancillas = [4,5]`, basis state
`|1111 00>` (all controls and target set: sign `-1`). -/
theorem C4_witness :
    (([0, 1, 2] : List Nat).length ≤ 4 ∧
     (([0, 1, 2] : List Nat) ++ 3 :: [4, 5]).Nodup ∧
     ([0, 1, 2] : List Nat).length - 1 ≤ ([4, 5] : List Nat).length ∧
     (∀ a ∈ ([4, 5] : List Nat), (fun w => decide (w ≤ 3)) a = false)) ∧
    cmzPhase [0, 1, 2] 3 [4, 5] (fun w => decide (w ≤ 3)) =
      some (([0, 1, 2] : List Nat).all (fun w => decide (w ≤ 3)) &&
        (fun w => decide (w ≤ 3)) 3) ∧
    ∃ ops, cmz [0, 1, 2] 3 [4, 5] = .ok ops ∧
      runState ops (fun w => decide (w ≤ 3)) = (fun w => decide (w ≤ 3)) :=
  ⟨⟨by decide, by decide, by decide, by decide⟩,
   C4_cmz_phase_amended [0, 1, 2] 3 [4, 5] (fun w => decide (w ≤ 3))
     (by decide) (by decide) (by decide) (by decide)⟩

theorem one_testBit (k : Nat) : (1 : Nat).testBit k = decide (k = 0) := by
  cases k with
  | zero => rfl
  | succ k =>
      rw [show (1 : Nat) = 2 ^ 0 from rfl, Nat.testBit_two_pow]
      simp

/-- C5: encoding a non-negative global index into `(block_id, local)` with
`b >= 1` block bits and decoding back via `(block_id << b) | local` is the
identity, and the local part is always below `2^b`. -/
theorem C5_block_codec_roundtrip :
    ∀ (globalIdx b : Nat), 1 ≤ b →
      block_decode (block_encode globalIdx b).1 (block_encode globalIdx b).2 b
        = globalIdx ∧
      (block_encode globalIdx b).2 < 2 ^ b := by
  intro g b _
  constructor
  · apply Nat.eq_of_testBit_eq
    intro i
    simp only [block_decode, block_encode, Nat.one_shiftLeft, Nat.testBit_or,
      Nat.testBit_shiftLeft, Nat.testBit_shiftRight, Nat.testBit_and,
      Nat.testBit_two_pow_sub_one]
    by_cases hib : i < b
    · have hnge : ¬ (i ≥ b) := by omega
      simp [hnge, hib]
    · have hge : i ≥ b := by omega
      have hbi : b + (i - b) = i := by omega
      simp [hge, hib, hbi]
  · have h1 : (block_encode g b).2 ≤ 2 ^ b - 1 := by
      simp only [block_encode, Nat.one_shiftLeft]
      exact Nat.and_le_right
    have h2 := Nat.two_pow_pos b
    omega

/-- C5 witness: the round trip at `global = 37`, `b = 4`
(`block_id = 2`, `local = 5`). -/
theorem C5_witness :
    (1 ≤ 4) ∧
    (block_decode (block_encode 37 4).1 (block_encode 37 4).2 4 = 37 ∧
     (block_encode 37 4).2 < 2 ^ 4) :=
  ⟨by decide, C5_block_codec_roundtrip 37 4 (by decide)⟩

/-- C6: `decode_index_from_bitstring` returns the integer whose bit `i`
(for `i < n`, `i = 0` least significant) is the character at position
`mapping[i]` of the bitstring when that position is defined and in range,
and `0` otherwise (silently, with no error possible); bits at or above `n`
are `0`.  In particular, mapping `{0: 2, 1: 0, 2: 1}` with bitstring
`"101"` decodes to `3`. -/
theorem C6_decode_index_bits :
    (∀ (bitstr : List Char) (qubit_to_pos : Nat → Option Int) (n i : Nat),
      (decode_index_from_bitstring bitstr qubit_to_pos n).testBit i =
        (decide (i < n) && decode_bit_spec bitstr qubit_to_pos i)) ∧
    decode_index_from_bitstring ['1', '0', '1'] qubit_to_pos_example 3 = 3 := by
  refine ⟨?_, by decide⟩
  intro bs m n
  induction n with
  | zero =>
      intro i
      simp [decode_index_from_bitstring, Nat.zero_testBit]
  | succ n ih =>
      intro i
      cases hmn : m n with
      | none =>
          simp only [decode_index_from_bitstring, hmn]
          rw [ih i]
          by_cases hin : i = n
          · subst hin
            simp [decode_bit_spec, hmn]
          · have hiff : (i < n + 1) ↔ (i < n) := by omega
            simp [hiff]
      | some pos =>
          by_cases hrange : pos < 0 ∨ (bs.length : Int) ≤ pos
          · simp only [decode_index_from_bitstring, hmn, if_pos hrange]
            rw [ih i]
            by_cases hin : i = n
            · subst hin
              simp [decode_bit_spec, hmn, hrange]
            · have hiff : (i < n + 1) ↔ (i < n) := by omega
              simp [hiff]
          · simp only [decode_index_from_bitstring, hmn, if_neg hrange]
            rw [Nat.testBit_or, ih i, Nat.testBit_shiftLeft]
            by_cases hin : i = n
            · subst hin
              simp only [decode_bit_spec, hmn, if_neg hrange]
              have hbit0 : (if bs.getD pos.toNat ' ' = '1' then (1 : Nat)
                  else 0).testBit 0 = decide (bs.getD pos.toNat ' ' = '1') := by
                by_cases hc : bs.getD pos.toNat ' ' = '1'
                · rw [if_pos hc, one_testBit]
                  simpa using hc
                · rw [if_neg hc, Nat.zero_testBit]
                  symm
                  simpa using hc
              rw [Nat.sub_self, hbit0]
              simp
            · have hiff : (i < n + 1) ↔ (i < n) := by omega
              by_cases hilt : i < n
              · have hnge : ¬ (i ≥ n) := by omega
                simp [hnge, hiff, hilt]
              · have hge : i ≥ n := by omega
                have hne0 : ¬ (i - n = 0) := by omega
                have hbit : (if bs.getD pos.toNat ' ' = '1' then (1 : Nat)
                    else 0).testBit (i - n) = false := by
                  by_cases hc : bs.getD pos.toNat ' ' = '1'
                  · rw [if_pos hc, one_testBit]
                    simp [hne0]
                  · rw [if_neg hc]
                    exact Nat.zero_testBit _
                rw [hbit]
                simp [hiff, hilt]

theorem cmz_ok_of_enough (controls : List Nat) (target : Nat)
    (ancillas : List Nat) (h : controls.length - 1 ≤ ancillas.length) :
    ∃ ops, cmz controls target ancillas = .ok ops := by
  cases hl : controls.length with
  | zero =>
      obtain rfl : controls = [] := List.length_eq_zero.mp hl
      exact ⟨_, rfl⟩
  | succ n =>
      cases n with
      | zero =>
          obtain ⟨c, rfl⟩ := List.length_eq_one.mp hl
          exact ⟨_, rfl⟩
      | succ n2 =>
          exact ⟨_, cmz_eq_ladder controls ancillas target (by omega) h⟩

/-- C9: for `m >= 2` controls, `_cmz` fails, with the error message stating
the required ancilla count, exactly when fewer than `m - 1` ancillas are
supplied — and the failure is returned before any ladder op is emitted;
with at least `m - 1` ancillas no error is raised. -/
theorem C9_cmz_ancilla_error :
    ∀ (controls : List Nat) (target : Nat) (ancillas : List Nat),
      2 ≤ controls.length →
      (ancillas.length < controls.length - 1 →
        cmz controls target ancillas =
          .error (cmz_error_msg (controls.length - 1) ancillas.length)) ∧
      (controls.length - 1 ≤ ancillas.length →
        ∃ ops, cmz controls target ancillas = .ok ops) := by
  intro controls target ancillas hm
  constructor
  · intro hlt
    have h0 : ¬ controls.length = 0 := by omega
    have h1 : ¬ controls.length = 1 := by omega
    simp [cmz, h0, h1, hlt]
  · intro hle
    exact cmz_ok_of_enough controls target ancillas hle

/-- C9 witness: `m = 3` controls with only one ancilla fail with the
message naming `need 2, got 1`; with two ancillas the call succeeds. -/
theorem C9_witness :
    (2 ≤ ([0, 1, 2] : List Nat).length) ∧
    ((([4] : List Nat).length < ([0, 1, 2] : List Nat).length - 1 →
      cmz [0, 1, 2] 3 [4] =
        .error (cmz_error_msg (([0, 1, 2] : List Nat).length - 1)
          ([4] : List Nat).length)) ∧
     (([0, 1, 2] : List Nat).length - 1 ≤ ([4] : List Nat).length →
      ∃ ops, cmz [0, 1, 2] 3 [4] = .ok ops)) :=
  ⟨by decide, C9_cmz_ancilla_error [0, 1, 2] 3 [4] (by decide)⟩

theorem except_bind_ok {α β : Type} (a : α) (f : α → Except String β) :
    ((Except.ok a : Except String α) >>= f) = f a := rfl

theorem except_ok_exists {α : Type} {e : Except String α} {v : α}
    (h : e = .ok v) : ∃ x, e = .ok x := ⟨v, h⟩

theorem oracle_targets_ok (active_qubits controls : List Nat) (target_q : Nat)
    (anc_use : List Nat) (h : ∃ ops, cmz controls target_q anc_use = .ok ops) :
    ∀ ts, ∃ gs, oracle_targets active_qubits controls target_q anc_use ts
      = .ok gs := by
  intro ts
  induction ts with
  | nil => exact ⟨[], rfl⟩
  | cons t ts ih =>
      obtain ⟨ops, hops⟩ := h
      obtain ⟨rest, hrest⟩ := ih
      apply except_ok_exists
      simp only [oracle_targets]
      rw [hops]
      simp only [except_bind_ok]
      rw [hrest]
      simp only [except_bind_ok]
      rfl

theorem oracle_phase_flip_ok (active_qubits ancillas : List Nat)
    (targets : List Int)
    (h : active_qubits.length - 2 ≤ ancillas.length) :
    ∃ gs, oracle_phase_flip active_qubits ancillas targets = .ok gs := by
  by_cases h0 : active_qubits.length = 0
  · apply except_ok_exists
    simp only [oracle_phase_flip]
    rw [if_pos h0]
  by_cases h1 : active_qubits.length = 1
  · apply except_ok_exists
    simp only [oracle_phase_flip]
    rw [if_neg h0, if_pos h1]
  have hcmz : ∃ ops, cmz active_qubits.dropLast (active_qubits.getLastD 0)
      (ancillas.take (active_qubits.dropLast.length - 1)) = .ok ops := by
    apply cmz_ok_of_enough
    rw [List.length_take, List.length_dropLast]
    exact le_min le_rfl (by omega)
  obtain ⟨gs, hgs⟩ :=
    oracle_targets_ok active_qubits active_qubits.dropLast
      (active_qubits.getLastD 0)
      (ancillas.take (active_qubits.dropLast.length - 1)) hcmz targets
  refine ⟨gs, ?_⟩
  simp only [oracle_phase_flip]
  rw [if_neg h0, if_neg h1]
  exact hgs

theorem diffusion_ok (active_qubits ancillas : List Nat)
    (h : active_qubits.length - 2 ≤ ancillas.length) :
    ∃ gs, diffusion active_qubits ancillas = .ok gs := by
  by_cases h0 : active_qubits.length = 0
  · apply except_ok_exists
    simp only [diffusion]
    rw [if_pos h0]
  by_cases h1 : active_qubits.length = 1
  · apply except_ok_exists
    simp only [diffusion]
    rw [if_neg h0, if_pos h1]
  have hcmz : ∃ ops, cmz active_qubits.dropLast (active_qubits.getLastD 0)
      (ancillas.take (active_qubits.dropLast.length - 1)) = .ok ops := by
    apply cmz_ok_of_enough
    rw [List.length_take, List.length_dropLast]
    exact le_min le_rfl (by omega)
  obtain ⟨ops, hops⟩ := hcmz
  apply except_ok_exists
  simp only [diffusion]
  rw [if_neg h0, if_neg h1, hops]
  simp only [except_bind_ok]
  rfl

theorem grover_loop_ok (active_qubits ancillas : List Nat) (targets : List Int)
    (og dg : List G)
    (ho : oracle_phase_flip active_qubits ancillas targets = .ok og)
    (hd : diffusion active_qubits ancillas = .ok dg) :
    ∀ k, grover_loop active_qubits ancillas targets k =
      .ok ((List.replicate k (og ++ dg)).flatten) := by
  intro k
  induction k with
  | zero => rfl
  | succ k ih =>
      simp only [grover_loop]
      rw [ho]
      simp only [except_bind_ok]
      rw [hd]
      simp only [except_bind_ok]
      rw [ih]
      simp only [except_bind_ok]
      rw [List.replicate_succ, List.flatten_cons, List.append_assoc]
      rfl

theorem build_ok (active_nbits nbits_max : Int) (targets : List Int)
    (grover_iters : Int) (ancilla_start : Option Nat)
    (h : max 1 active_nbits ≤ nbits_max) :
    ∃ p, build_grover_prog active_nbits nbits_max targets grover_iters
      ancilla_start = .ok p := by
  have hno : ¬ (max 1 active_nbits > nbits_max) := by omega
  have hlen : (List.range (max 1 active_nbits).toNat).length - 2 ≤
      (grover_ancillas active_nbits nbits_max ancilla_start).length := by
    rw [List.length_range]
    simp only [grover_ancillas, List.length_range']
    exact le_rfl
  obtain ⟨og, hog⟩ := oracle_phase_flip_ok _ _ targets hlen
  obtain ⟨dg, hdg⟩ := diffusion_ok _ _ hlen
  apply except_ok_exists
  simp only [build_grover_prog, if_neg hno]
  rw [grover_loop_ok _ _ _ _ _ hog hdg]
  simp only [except_bind_ok]
  rfl

/-- C7: the assembler raises exactly the width-check error
("active_nbits must be <= nbits_max (measured bits)"), and it does so if
and only if `active_nbits > nbits_max` (for `active_nbits >= 1`); the
error is returned with no program built.  For every well-formed input the
construction completes with `.ok` — in particular the insufficient-ancilla
error inside `_cmz` is unreachable from `build_grover_prog`, for any
iteration count and any integer target list. -/
theorem C7_build_width_check :
    ∀ (active_nbits nbits_max grover_iters : Int) (targets : List Int),
      1 ≤ active_nbits →
      (nbits_max < active_nbits →
        build_grover_prog active_nbits nbits_max targets grover_iters none =
          .error "active_nbits must be <= nbits_max (measured bits)") ∧
      (active_nbits ≤ nbits_max →
        ∃ p, build_grover_prog active_nbits nbits_max targets grover_iters
          none = .ok p) := by
  intro n W r ts h1
  have hmax : max 1 n = n := max_eq_right h1
  constructor
  · intro hlt
    have hgt : max 1 n > W := by rw [hmax]; omega
    simp only [build_grover_prog, if_pos hgt]
  · intro hle
    exact build_ok n W ts r none (by rw [hmax]; exact hle)

/-- C7 witness: `active_nbits = 3 > nbits_max = 2` raises the width error;
`active_nbits = 3 <= nbits_max = 10` builds successfully. -/
theorem C7_witness :
    ((1 : Int) ≤ 3) ∧
    ((2 : Int) < 3 →
      build_grover_prog 3 2 [1] 1 none =
        .error "active_nbits must be <= nbits_max (measured bits)") ∧
    ((3 : Int) ≤ 2 →
      ∃ p, build_grover_prog 3 2 [1] 1 none = .ok p) :=
  ⟨by decide, C7_build_width_check 3 2 1 [1] (by decide)⟩

/-- C8: for every well-formed input, the assembled program is H on each
active wire `[0, n)`, then `r` repetitions of oracle-then-diffusion, then
measurement declarations exactly on the wires `[0, W)` with channel index
equal to wire index; the `max(0, n-2)` ancilla wires are allocated
contiguously starting at `W` (the default `ancilla_start`), disjoint from
`[0, W)`, and no measured wire is an ancilla. -/
theorem C8_build_structure :
    ∀ (active_nbits nbits_max grover_iters : Int) (targets : List Int),
      1 ≤ active_nbits → active_nbits ≤ nbits_max → 0 ≤ grover_iters →
      ∃ og dg,
        oracle_phase_flip (List.range active_nbits.toNat)
          (grover_ancillas active_nbits nbits_max none) targets = .ok og ∧
        diffusion (List.range active_nbits.toNat)
          (grover_ancillas active_nbits nbits_max none) = .ok dg ∧
        build_grover_prog active_nbits nbits_max targets grover_iters none =
          .ok { gates := (List.range active_nbits.toNat).map G.h ++
                  (List.replicate grover_iters.toNat (og ++ dg)).flatten,
                meas := (List.range nbits_max.toNat).map fun i => (i, i) } ∧
        (grover_ancillas active_nbits nbits_max none).length =
          active_nbits.toNat - 2 ∧
        (∀ a ∈ grover_ancillas active_nbits nbits_max none,
          nbits_max.toNat ≤ a ∧
          a < nbits_max.toNat + (active_nbits.toNat - 2)) ∧
        (∀ p ∈ (List.range nbits_max.toNat).map (fun i => (i, i)),
          p.1 < nbits_max.toNat ∧ p.2 = p.1 ∧
          p.1 ∉ grover_ancillas active_nbits nbits_max none) := by
  intro n W r ts h1 h2 h3
  have hmax : max 1 n = n := max_eq_right h1
  have hno : ¬ (max 1 n > W) := by rw [hmax]; omega
  have hlen : (List.range (max 1 n).toNat).length - 2 ≤
      (grover_ancillas n W none).length := by
    rw [List.length_range]
    simp only [grover_ancillas, List.length_range']
    exact le_rfl
  rw [hmax] at hlen
  obtain ⟨og, hog⟩ := oracle_phase_flip_ok _ _ ts hlen
  obtain ⟨dg, hdg⟩ := diffusion_ok _ _ hlen
  refine ⟨og, dg, hog, hdg, ?_, ?_, ?_, ?_⟩
  · have hno2 : ¬ (n > W) := by omega
    simp only [build_grover_prog, hmax]
    rw [if_neg hno2, grover_loop_ok _ _ _ _ _ hog hdg]
    simp only [except_bind_ok]
    rfl
  · simp only [grover_ancillas, List.length_range', hmax]
  · intro a ha
    simp only [grover_ancillas, hmax, Option.getD_none] at ha
    rw [List.mem_range'_1] at ha
    omega
  · intro p hp
    rw [List.mem_map] at hp
    obtain ⟨i, hi, rfl⟩ := hp
    rw [List.mem_range] at hi
    refine ⟨hi, rfl, ?_⟩
    intro hmem
    simp only [grover_ancillas, hmax, Option.getD_none] at hmem
    rw [List.mem_range'_1] at hmem
    omega

/-- C8 witness: the structure theorem instantiated at `n = 4`, `W = 10`,
`r = 1`, targets `[5]`. -/
theorem C8_witness :
    ((1 : Int) ≤ 4 ∧ (4 : Int) ≤ 10 ∧ (0 : Int) ≤ 1) ∧
    ∃ og dg,
      oracle_phase_flip (List.range (4 : Int).toNat)
        (grover_ancillas 4 10 none) [5] = .ok og ∧
      diffusion (List.range (4 : Int).toNat)
        (grover_ancillas 4 10 none) = .ok dg ∧
      build_grover_prog 4 10 [5] 1 none =
        .ok { gates := (List.range (4 : Int).toNat).map G.h ++
                (List.replicate (1 : Int).toNat (og ++ dg)).flatten,
              meas := (List.range (10 : Int).toNat).map fun i => (i, i) } ∧
      (grover_ancillas 4 10 none).length = (4 : Int).toNat - 2 ∧
      (∀ a ∈ grover_ancillas 4 10 none,
        (10 : Int).toNat ≤ a ∧
        a < (10 : Int).toNat + ((4 : Int).toNat - 2)) ∧
      (∀ p ∈ (List.range (10 : Int).toNat).map (fun i => (i, i)),
        p.1 < (10 : Int).toNat ∧ p.2 = p.1 ∧
        p.1 ∉ grover_ancillas 4 10 none) :=
  ⟨⟨by decide, by decide, by decide⟩,
   C8_build_structure 4 10 1 [5] (by decide) (by decide) (by decide)⟩

/-- C10: a non-positive `active_nbits` is silently clamped to 1 before the
width check, ancilla allocation and circuit construction:
`build_grover_prog` behaves exactly as if `active_nbits` were 1, and with
`nbits_max >= 1` (and any iteration count) it raises no error. -/
theorem C10_build_clamps_nonpositive :
    ∀ (active_nbits nbits_max grover_iters : Int) (targets : List Int)
      (ancilla_start : Option Nat),
      active_nbits ≤ 0 →
      build_grover_prog active_nbits nbits_max targets grover_iters
          ancilla_start =
        build_grover_prog 1 nbits_max targets grover_iters ancilla_start ∧
      (1 ≤ nbits_max →
        ∃ p, build_grover_prog active_nbits nbits_max targets grover_iters
          ancilla_start = .ok p) := by
  intro n W r ts anc hn
  have hmax : max 1 n = 1 := max_eq_left (by omega)
  constructor
  · simp only [build_grover_prog, grover_ancillas, hmax, max_self]
  · intro hW
    exact build_ok n W ts r anc (by rw [hmax]; exact hW)

/-- C10 witness: `active_nbits = -3` with `nbits_max = 10` behaves exactly
like `active_nbits = 1` and builds successfully. -/
theorem C10_witness :
    ((-3 : Int) ≤ 0) ∧
    (build_grover_prog (-3) 10 [0] 2 none =
      build_grover_prog 1 10 [0] 2 none ∧
     ((1 : Int) ≤ 10 →
      ∃ p, build_grover_prog (-3) 10 [0] 2 none = .ok p)) :=
  ⟨by decide, C10_build_clamps_nonpositive (-3) 10 2 [0] none (by decide)⟩

end Qute
